import Mathlib

/-!
Verification of the Bandit repository: a Bernoulli multi-armed bandit
(`controller.py`, class `Bandit` and `run_experiment`) driven by four agents
(`randomAgent.py`, `GreedyAgent.py`, `UCBAgent.py`, `ThompsonAgent.py`).

The embedding is shallow: Python floats are modelled as rationals `ℚ`
(the claims under study are about exact bookkeeping, not rounding),
Python `int` counters as `ℕ`, and every random draw is an explicit input
(a stream parameter), so that each function is a deterministic function of
its inputs.  A Python operation that can raise (list indexing, `max` of an
empty list, `math.log(0)`, `float(...)` of a non-numeric line) is modelled
as an `Option`, `none` meaning the exception propagates.
-/

namespace Bandits

/-- Observation appended to the runner's history: `(arm_index, reward)`.
The arm index is an `ℤ` because it is whatever the agent returned, and
Python list indexing accepts negative indices. -/
abbrev Obs := ℤ × ℚ

/-- Python list read `xs[i]` for `i : ℤ`: indices in `[0, len)` read directly,
indices in `[-len, 0)` wrap to `len + i`, anything else raises `IndexError`
(modelled as `none`). -/
def pyGet {α : Type _} (xs : List α) (i : ℤ) : Option α :=
  if 0 ≤ i then xs.get? i.toNat
  else if -(xs.length : ℤ) ≤ i then xs.get? (i + xs.length).toNat
  else none

/-- Python list write `xs[i] = v`, same index discipline as `pyGet`. -/
def pySet {α : Type _} (xs : List α) (i : ℤ) (v : α) : Option (List α) :=
  if 0 ≤ i then
    if i < (xs.length : ℤ) then some (xs.set i.toNat v) else none
  else if -(xs.length : ℤ) ≤ i then some (xs.set (i + xs.length).toNat v)
  else none

theorem pyGet_nat {α : Type _} (xs : List α) (k : ℕ) :
    pyGet xs (k : ℤ) = xs.get? k := by
  simp [pyGet]

theorem pySet_nat {α : Type _} (xs : List α) (k : ℕ) (hk : k < xs.length) (v : α) :
    pySet xs (k : ℤ) v = some (xs.set k v) := by
  simp [pySet, hk]

theorem pyGet_mem {α : Type _} {xs : List α} {i : ℤ} {v : α}
    (h : pyGet xs i = some v) : v ∈ xs := by
  unfold pyGet at h
  split at h
  · exact List.get?_mem h
  · split at h
    · exact List.get?_mem h
    · exact absurd h (by simp)

theorem pyGet_eq_none_iff {α : Type _} (xs : List α) (i : ℤ) :
    pyGet xs i = none ↔ (i < -(xs.length : ℤ) ∨ (xs.length : ℤ) ≤ i) := by
  unfold pyGet
  rcases le_or_lt 0 i with h0 | h0
  · rw [if_pos h0]
    rw [List.get?_eq_none]
    omega
  · rw [if_neg (by omega)]
    rcases le_or_lt (-(xs.length : ℤ)) i with h1 | h1
    · rw [if_pos h1]
      rw [List.get?_eq_none]
      omega
    · rw [if_neg (by omega)]
      simp
      omega

/-- `Bandit` from `controller.py`: stores the per-arm success probabilities. -/
structure Bandit where
  arms : List ℚ
deriving DecidableEq

namespace Bandit

/-- Python `max(list)`: `none` on the empty list (`ValueError`). -/
def pyMax : List ℚ → Option ℚ
  | [] => none
  | x :: xs => some (xs.foldl max x)

theorem le_pyMax {xs : List ℚ} {m : ℚ} (h : pyMax xs = some m) :
    ∀ v ∈ xs, v ≤ m := by
  match xs with
  | [] => simp [pyMax] at h
  | x :: rest =>
    simp only [pyMax, Option.some.injEq] at h
    subst h
    have key : ∀ (l : List ℚ) (a : ℚ), a ≤ l.foldl max a ∧
        ∀ v ∈ l, v ≤ l.foldl max a := by
      intro l
      induction l with
      | nil => intro a; exact ⟨le_refl a, by simp⟩
      | cons y ys ih =>
        intro a
        refine ⟨le_trans (le_max_left a y) (ih (max a y)).1, ?_⟩
        intro v hv
        rcases List.mem_cons.mp hv with rfl | hv
        · exact le_trans (le_max_right a v) (ih (max a v)).1
        · exact (ih (max a y)).2 v hv
    intro v hv
    rcases List.mem_cons.mp hv with rfl | hv
    · exact (key rest v).1
    · exact (key rest x).2 v hv

/-- `Bandit.getNumArms`. -/
def getNumArms (b : Bandit) : ℕ := b.arms.length

/-- `Bandit.getMaxExpectedReward`: Python `max(self.arms)`. -/
def getMaxExpectedReward (b : Bandit) : Option ℚ := pyMax b.arms

/-- `Bandit.pull_arm`: reads `self.arms[arm_idx]` (Python indexing), then
returns `1` when the uniform draw `u` satisfies `u <= p`, else `0`.
The draw `random.random()` is passed in explicitly as `u`. -/
def pull_arm (b : Bandit) (arm_idx : ℤ) (u : ℚ) : Option ℚ :=
  (pyGet b.arms arm_idx).map (fun p => if u ≤ p then (1 : ℚ) else 0)

/-- The parse of one configuration line: `some q` when Python `float(line)`
succeeds with value `q`, `none` when it raises `ValueError` (non-numeric). -/
abbrev ConfigLine := Option ℚ

/-- The list comprehension `[float(x) for x in lines[1:]]`: stops with an
error at the first non-numeric line. -/
def parseAll : List ConfigLine → Option (List ℚ)
  | [] => some []
  | none :: _ => none
  | some q :: rest => (parseAll rest).map (q :: ·)

/-- `Bandit.from_file` on the already-split lines of the file: the first
line (header) is skipped, every later line is parsed with `float`; any
parse failure aborts construction.  No further validation is performed. -/
def from_file (lines : List ConfigLine) : Option Bandit :=
  (parseAll (lines.drop 1)).map Bandit.mk

end Bandit

/-- One round plus the rest of the loop body of `run_experiment`
(`controller.py`).  `agentStep t s hist` is the call
`agent.recommendArm(bandit, history)` at round `t`: it returns the agent's
new internal state and the recommended arm index (`none` if the agent
raises).  `banditRand t` is the value of `random.random()` consumed by
`bandit.pull_arm` at round `t`.  Returns the final agent state, the final
history, and the two cumulative series. -/
def runLoop {σ : Type _} (arms : List ℚ) (best : ℚ)
    (agentStep : ℕ → σ → List Obs → Option (σ × ℤ)) (banditRand : ℕ → ℚ) :
    ℕ → ℕ → σ → List Obs → ℚ → ℚ → Option (σ × List Obs × List ℚ × List ℚ)
  | 0, _, s, hist, _, _ => some (s, hist, [], [])
  | n + 1, t, s, hist, totR, totG =>
    match agentStep t s hist with
    | none => none
    | some (s', a) =>
      match pyGet arms a with
      | none => none
      | some p =>
        let r : ℚ := if banditRand t ≤ p then 1 else 0
        let totR' := totR + r
        let totG' := totG + (best - p)
        match runLoop arms best agentStep banditRand n (t + 1) s'
            (hist ++ [(a, r)]) totR' totG' with
        | none => none
        | some (sf, hf, rs, gs) => some (sf, hf, totR' :: rs, totG' :: gs)

/-- `run_experiment` from `controller.py`: computes
`best_expected = bandit.getMaxExpectedReward()` (raises on an empty arm
list), then runs `num_plays` rounds, each round asking the agent for an arm,
pulling it, accumulating realized reward and pseudo-regret, and appending
the observation to the (ever-growing) history that is passed to the agent. -/
def run_experiment {σ : Type _} (bandit : Bandit) (num_plays : ℕ) (agentInit : σ)
    (agentStep : ℕ → σ → List Obs → Option (σ × ℤ)) (banditRand : ℕ → ℚ) :
    Option (σ × List Obs × List ℚ × List ℚ) :=
  match Bandit.pyMax bandit.arms with
  | none => none
  | some best => runLoop bandit.arms best agentStep banditRand num_plays 0 agentInit [] 0 0

/-! ## epsGreedyAgent (`GreedyAgent.py`) -/

/-- The per-arm running statistics of `epsGreedyAgent` after lazy
initialization: `arm_counts` and `arm_values`. -/
structure GreedyState where
  arm_counts : List ℕ
  arm_values : List ℚ
deriving DecidableEq

namespace epsGreedyAgent

/-- `_ensure_init`: arrays are created on first use; the full agent state is
`Option GreedyState`, `none` before the first call. -/
def ensure_init (st : Option GreedyState) (num_arms : ℕ) : GreedyState :=
  st.getD ⟨List.replicate num_arms 0, List.replicate num_arms 0⟩

/-- `_ingest_history`: folds the `(arm, reward)` pairs into the running
statistics with the incremental mean update
`mean_new = mean_old + (reward - mean_old) / n_new`.  List accesses follow
Python indexing; an out-of-range arm index raises (`none`). -/
def ingest_history : GreedyState → List Obs → Option GreedyState
  | st, [] => some st
  | st, (arm_idx, reward) :: rest =>
    match pyGet st.arm_counts arm_idx, pyGet st.arm_values arm_idx with
    | some n_old, some mean_old =>
      let n_new := n_old + 1
      let mean_new := mean_old + (reward - mean_old) / (n_new : ℚ)
      match pySet st.arm_counts arm_idx n_new, pySet st.arm_values arm_idx mean_new with
      | some counts', some values' => ingest_history ⟨counts', values'⟩ rest
      | _, _ => none
    | _, _ => none

/-- The scan of `_argmax`: enumerate positions from `i`, replacing the best
pair `(best_i, best_v)` exactly when the value is strictly greater. -/
def argmaxAux : List ℚ → ℕ → ℕ → ℚ → ℕ
  | [], _, best_i, _ => best_i
  | v :: rest, i, best_i, best_v =>
    if best_v < v then argmaxAux rest (i + 1) i v
    else argmaxAux rest (i + 1) best_i best_v

/-- `_argmax`: `best_i = 0, best_v = xs[0]` (raises on an empty list), then
a left-to-right scan replacing the best only on a strict increase, so ties
keep the lowest index. -/
def argmax : List ℚ → Option ℕ
  | [] => none
  | x :: xs => some (argmaxAux (x :: xs) 0 0 x)

/-- `recommendArm`: lazily initialize, ingest the passed history, then with
probability epsilon explore (the uniform draw `u` is `random.random()`, and
`explore_pick` stands for the `random.randrange(num_arms)` draw), else
exploit via `_argmax` over the running means. -/
def recommendArm (epsilon : ℚ) (u : ℚ) (explore_pick : ℕ) (num_arms : ℕ)
    (st : Option GreedyState) (history : List Obs) : Option (GreedyState × ℕ) := do
  let st0 := ensure_init st num_arms
  let st1 ← ingest_history st0 history
  if u < epsilon then
    pure (st1, explore_pick % num_arms)
  else do
    let choice ← argmax st1.arm_values
    pure (st1, choice)

/-- The agent as a step function for `run_experiment`: agent state is
`Option GreedyState`; the two per-round random draws are explicit streams. -/
def step (epsilon : ℚ) (uStream : ℕ → ℚ) (pickStream : ℕ → ℕ) (num_arms : ℕ) :
    ℕ → Option GreedyState → List Obs → Option (Option GreedyState × ℤ) :=
  fun t st history =>
    (recommendArm epsilon (uStream t) (pickStream t) num_arms st history).map
      (fun p => (some p.1, (p.2 : ℤ)))

end epsGreedyAgent

/-! ## UCBAgent (`UCBAgent.py`) -/

/-- The running statistics of `UCBAgent` after lazy initialization:
`arm_counts`, `arm_values` and `total_counts`.  `total_counts` lives in the
agent from construction but is `0` until the first ingest, so folding it
into the lazily created state is faithful. -/
structure UCBState where
  arm_counts : List ℕ
  arm_values : List ℚ
  total_counts : ℕ
deriving DecidableEq

namespace UCBAgent

/-- `_ensure_init` for `UCBAgent`. -/
def ensure_init (st : Option UCBState) (num_arms : ℕ) : UCBState :=
  st.getD ⟨List.replicate num_arms 0, List.replicate num_arms 0, 0⟩

/-- `_ingest_history` for `UCBAgent`: same incremental mean update as the
epsilon-greedy agent, plus `total_counts += 1` per observation. -/
def ingest_history : UCBState → List Obs → Option UCBState
  | st, [] => some st
  | st, (arm_idx, reward) :: rest =>
    match pyGet st.arm_counts arm_idx, pyGet st.arm_values arm_idx with
    | some n_old, some mean_old =>
      let n_new := n_old + 1
      let mean_new := mean_old + (reward - mean_old) / (n_new : ℚ)
      match pySet st.arm_counts arm_idx n_new, pySet st.arm_values arm_idx mean_new with
      | some counts', some values' =>
        ingest_history ⟨counts', values', st.total_counts + 1⟩ rest
      | _, _ => none
    | _, _ => none

/-- The warm-up loop
`for i in range(num_arms): if self.arm_counts[i] == 0: return i`:
the first index `i < num_arms` whose count is zero.  (In every reachable
state `counts` has length exactly `num_arms`; the theorems carry that
hypothesis where it matters.) -/
def firstZero (counts : List ℕ) (num_arms : ℕ) : Option ℕ :=
  (List.range num_arms).find? (fun i => counts.get? i == some 0)

/-- The steady-state scan: `best_i = -1`, `best_ucb = -inf` (modelled as
`⊥ : WithBot ℝ`), then take each arm whose score strictly exceeds the best. -/
noncomputable def steadyScan (scores : List ℝ) : ℤ :=
  (scores.enum.foldl
    (fun acc p => if (p.2 : WithBot ℝ) > acc.2 then ((p.1 : ℤ), (p.2 : WithBot ℝ)) else acc)
    ((-1 : ℤ), (⊥ : WithBot ℝ))).1

/-- `recommendArm` for `UCBAgent`: lazy init, ingest, warm-up scan for an
unplayed arm; otherwise `ln_t = math.log(total_counts)` (raises on
`total_counts = 0`, hence the guard) and the UCB1 scores
`mean + c * sqrt(ln_t / n)` with the strict-improvement argmax scan. -/
noncomputable def recommendArm (c : ℝ) (num_arms : ℕ) (st : Option UCBState)
    (history : List Obs) : Option (UCBState × ℤ) :=
  match ingest_history (ensure_init st num_arms) history with
  | none => none
  | some st1 =>
    match firstZero st1.arm_counts num_arms with
    | some i => some (st1, (i : ℤ))
    | none =>
      if st1.total_counts = 0 then none
      else
        match (List.range num_arms).mapM (fun i =>
            (st1.arm_values.get? i).bind (fun mean =>
              (st1.arm_counts.get? i).map (fun n =>
                (mean : ℝ) + c * Real.sqrt (Real.log st1.total_counts / (n : ℝ))))) with
        | none => none
        | some scores => some (st1, steadyScan scores)

/-- The agent as a step function for `run_experiment`. -/
noncomputable def step (c : ℝ) (num_arms : ℕ) :
    ℕ → Option UCBState → List Obs → Option (Option UCBState × ℤ) :=
  fun _ st history =>
    (recommendArm c num_arms st history).map (fun p => (some p.1, p.2))

end UCBAgent

/-! ## thompsonAgent (`ThompsonAgent.py`) -/

/-- One arm's Beta pseudo-counts `{"alpha": .., "beta": ..}`. -/
structure TArm where
  alpha : ℕ
  beta : ℕ
deriving DecidableEq

namespace thompsonAgent

/-- `update`: reward equal to `1` increments that arm's alpha, anything
else increments its beta.  Python dict/list access via the (possibly
negative) arm index. -/
def update (arms : List TArm) (arm : ℤ) (reward : ℚ) : Option (List TArm) := do
  let cur ← pyGet arms arm
  pySet arms arm (if reward = 1 then ⟨cur.alpha + 1, cur.beta⟩ else ⟨cur.alpha, cur.beta + 1⟩)

/-- `recommendArm` for `thompsonAgent`: lazy init to the uniform prior
`(1,1)` per arm; if history is non-empty, ingest only `history[-1]`; then
pick the arm with the largest Beta sample, breaking exact ties by
`random.choice` over the tied arms.  The `np.random.beta` draws are passed
in as `samples` (one per arm) and the tie-break draw as `tie_pick`. -/
def recommendArm (num_arms : ℕ) (samples : List ℚ) (tie_pick : ℕ)
    (st : Option (List TArm)) (history : List Obs) : Option (List TArm × ℤ) := do
  let arms0 := st.getD (List.replicate num_arms ⟨1, 1⟩)
  let arms1 ←
    match history.getLast? with
    | none => pure arms0
    | some (last_arm, last_reward) => update arms0 last_arm last_reward
  let max_sample ← Bandit.pyMax samples
  let best_arms := (samples.enum.filter (fun p => p.2 = max_sample)).map (·.1)
  let chosen ← best_arms.get? (tie_pick % best_arms.length)
  pure (arms1, (chosen : ℤ))

/-- The agent as a step function for `run_experiment`: the numpy stream
`npStream t` yields the per-arm Beta samples of round `t` (numpy's global
generator, a stream separate from Python's `random`), and `tieStream t` the
round's `random.choice` draw from Python's stream. -/
def step (npStream : ℕ → List ℚ) (tieStream : ℕ → ℕ) (num_arms : ℕ) :
    ℕ → Option (List TArm) → List Obs → Option (Option (List TArm) × ℤ) :=
  fun t st history =>
    (recommendArm num_arms (npStream t) (tieStream t) st history).map
      (fun p => (some p.1, p.2))

end thompsonAgent

/-! ## Helper lemmas -/

theorem parseAll_eq_none_iff (l : List Bandit.ConfigLine) :
    Bandit.parseAll l = none ↔ none ∈ l := by
  induction l with
  | nil => simp [Bandit.parseAll]
  | cons x rest ih =>
    cases x with
    | none => simp [Bandit.parseAll]
    | some q =>
      simp only [Bandit.parseAll, List.mem_cons]
      constructor
      · intro h
        right
        exact ih.mp (by
          cases hr : Bandit.parseAll rest with
          | none => rfl
          | some qs => rw [hr] at h; exact absurd h (by simp))
      · rintro (h | h)
        · exact absurd h (by simp)
        · rw [ih.mpr h]; rfl

theorem parseAll_eq_some (l : List Bandit.ConfigLine) (qs : List ℚ)
    (h : Bandit.parseAll l = some qs) : qs = l.reduceOption := by
  induction l generalizing qs with
  | nil =>
    simp only [Bandit.parseAll, Option.some.injEq] at h
    subst h
    rfl
  | cons x rest ih =>
    cases x with
    | none => exact absurd h (by simp [Bandit.parseAll])
    | some q =>
      simp only [Bandit.parseAll] at h
      cases hr : Bandit.parseAll rest with
      | none => rw [hr] at h; exact absurd h (by simp)
      | some qs' =>
        rw [hr] at h
        simp only [Option.map_some', Option.some.injEq] at h
        rw [← h, List.reduceOption_cons_of_some, ih qs' hr]

/-! ## Claim C3 -/

/-- Claim C3 counterexample: `pull_arm` does NOT fail on every out-of-range
index.  On a two-arm bandit the negative index `-1` is outside `[0, 2)` yet
`pull_arm` succeeds, silently mapping `-1` to the last arm (here the arm
with probability `1`, so the pull returns reward `1`). -/
theorem pull_arm_neg_index_no_error :
    Bandit.pull_arm ⟨[0, 1]⟩ (-1) (1/2) = some 1 ∧
      ((-1 : ℤ) < 0 ∨ (2 : ℤ) ≤ -1) := by
  constructor
  · norm_num [Bandit.pull_arm, pyGet]
  · left; decide

/-- Claim C3 (amended): `pull_arm(arm_index)` fails with an index-range
error iff `arm_index` is outside `[-numArms, numArms)`; a negative index in
`[-numArms, 0)` is silently mapped to the arm at `numArms + arm_index`,
Python-style, rather than rejected. -/
theorem pull_arm_error_iff (b : Bandit) (i : ℤ) (u : ℚ) :
    (Bandit.pull_arm b i u = none ↔
      (i < -(b.arms.length : ℤ) ∨ (b.arms.length : ℤ) ≤ i)) ∧
    (-(b.arms.length : ℤ) ≤ i → i < 0 →
      ∃ p, b.arms.get? (i + b.arms.length).toNat = some p ∧
        Bandit.pull_arm b i u = some (if u ≤ p then 1 else 0)) := by
  constructor
  · rw [Bandit.pull_arm, Option.map_eq_none']
    exact pyGet_eq_none_iff b.arms i
  · intro h1 h2
    have hlt : (i + b.arms.length).toNat < b.arms.length := by omega
    refine ⟨b.arms.get ⟨(i + b.arms.length).toNat, hlt⟩, List.get?_eq_get hlt, ?_⟩
    rw [Bandit.pull_arm, pyGet, if_neg (by omega), if_pos h1, List.get?_eq_get hlt]
    rfl

/-- Claim C3 witness: the amended statement applied at a two-arm bandit
with `arm_index = -1`. -/
theorem pull_arm_error_iff_witness :
    ∃ p, ([0, 1] : List ℚ).get? 1 = some p ∧
      Bandit.pull_arm ⟨[0, 1]⟩ (-1) (1/2) = some (if (1/2 : ℚ) ≤ p then 1 else 0) := by
  have h := (pull_arm_error_iff ⟨[0, 1]⟩ (-1) (1/2)).2 (by decide) (by decide)
  exact h

/-! ## Claim C4 -/

/-- Claim C4 counterexample: `from_file` performs no `[0,1]` validation and
accepts an empty arm list.  A configuration whose single data line parses to
`3/2` (outside `[0,1]`) loads successfully, and a configuration with a
header line only (empty arm list) also loads successfully — the claim says
both must be fatal load-time errors. -/
theorem from_file_no_validation :
    Bandit.from_file [some 0, some (3/2)] = some ⟨[3/2]⟩ ∧
      ¬ ((3/2 : ℚ) ≤ 1) ∧
      Bandit.from_file [some 0] = some ⟨[]⟩ := by
  refine ⟨rfl, by norm_num, rfl⟩

/-- Claim C4 (amended): construction from a configuration source fails at
load time exactly when some line after the header is non-numeric
(`float(..)` raises); a probability outside `[0,1]` and an empty arm list
are accepted at load time.  On success the bandit holds exactly the parsed
probabilities in file order. -/
theorem from_file_spec (lines : List Bandit.ConfigLine) :
    (Bandit.from_file lines = none ↔ none ∈ lines.drop 1) ∧
    (∀ b, Bandit.from_file lines = some b → b.arms = (lines.drop 1).reduceOption) := by
  constructor
  · rw [Bandit.from_file, Option.map_eq_none']
    exact parseAll_eq_none_iff _
  · intro b hb
    rw [Bandit.from_file] at hb
    cases hp : Bandit.parseAll (lines.drop 1) with
    | none => rw [hp] at hb; exact absurd hb (by simp)
    | some qs =>
      rw [hp] at hb
      simp only [Option.map_some', Option.some.injEq] at hb
      rw [← hb]
      exact parseAll_eq_some _ _ hp

/-- Claim C4 witness: the amended statement applied to a well-formed
two-arm configuration. -/
theorem from_file_spec_witness :
    (Bandit.mk [1/2, 1] : Bandit).arms =
      (([some 0, some (1/2), some 1] : List Bandit.ConfigLine).drop 1).reduceOption := by
  exact (from_file_spec [some 0, some (1/2), some 1]).2 ⟨[1/2, 1]⟩ rfl

/-! ## Argmax scan lemmas (`_argmax` in `GreedyAgent.py`) -/

theorem argmaxAux_spec (l : List ℚ) : ∀ (pre : List ℚ) (best_i : ℕ) (best_v : ℚ),
    best_i < pre.length →
    pre.get? best_i = some best_v →
    (∀ j v, pre.get? j = some v → v ≤ best_v) →
    (∀ j v, j < best_i → pre.get? j = some v → v < best_v) →
    ∃ m, (pre ++ l).get? (epsGreedyAgent.argmaxAux l pre.length best_i best_v) = some m ∧
      (∀ j v, (pre ++ l).get? j = some v → v ≤ m) ∧
      (∀ j v, j < epsGreedyAgent.argmaxAux l pre.length best_i best_v →
        (pre ++ l).get? j = some v → v < m) := by
  induction l with
  | nil =>
    intro pre best_i best_v hbl hbv hle hlt
    refine ⟨best_v, ?_, ?_, ?_⟩
    · rw [List.append_nil, epsGreedyAgent.argmaxAux]
      exact hbv
    · intro j v hj
      rw [List.append_nil] at hj
      exact hle j v hj
    · intro j v hj hjv
      rw [List.append_nil] at hjv
      exact hlt j v (by rwa [epsGreedyAgent.argmaxAux] at hj) hjv
  | cons x rest ih =>
    intro pre best_i best_v hbl hbv hle hlt
    have hxpos : (pre ++ [x]).get? pre.length = some x := List.get?_concat_length pre x
    have happ : pre ++ x :: rest = (pre ++ [x]) ++ rest := by simp
    have hlen1 : (pre ++ [x]).length = pre.length + 1 := by simp
    rw [epsGreedyAgent.argmaxAux]
    by_cases hc : best_v < x
    · rw [if_pos hc]
      have := ih (pre ++ [x]) pre.length x (by omega)
        (by rw [hxpos])
        (by
          intro j v hj
          rcases lt_trichotomy j pre.length with hlt' | rfl | hgt
          · rw [List.get?_append hlt'] at hj
            exact le_of_lt (lt_of_le_of_lt (hle j v hj) hc)
          · rw [hxpos] at hj
            exact le_of_eq (Option.some.injEq _ _ ▸ hj.symm : _)
          · rw [List.get?_eq_none.mpr (by omega)] at hj
            exact absurd hj (by simp))
        (by
          intro j v hj hjv
          rw [List.get?_append (by omega)] at hjv
          exact lt_of_le_of_lt (hle j v hjv) hc)
      rw [hlen1] at this
      rwa [happ]
    · rw [if_neg hc]
      push_neg at hc
      have := ih (pre ++ [x]) best_i best_v (by omega)
        (by rw [List.get?_append hbl]; exact hbv)
        (by
          intro j v hj
          rcases lt_trichotomy j pre.length with hlt' | rfl | hgt
          · rw [List.get?_append hlt'] at hj
            exact hle j v hj
          · rw [hxpos] at hj
            exact le_trans (le_of_eq (Option.some.injEq _ _ ▸ hj.symm : _)) hc
          · rw [List.get?_eq_none.mpr (by omega)] at hj
            exact absurd hj (by simp))
        (by
          intro j v hj hjv
          rw [List.get?_append (by omega)] at hjv
          exact hlt j v hj hjv)
      rw [hlen1] at this
      rwa [happ]

/-- Specification of `_argmax`: the returned index holds a maximal value,
and every strictly earlier entry is strictly below it (first-seen-max,
left-to-right scan with a strict comparison). -/
theorem argmax_spec {xs : List ℚ} {i : ℕ} (h : epsGreedyAgent.argmax xs = some i) :
    ∃ m, xs.get? i = some m ∧
      (∀ j v, xs.get? j = some v → v ≤ m) ∧
      (∀ j v, j < i → xs.get? j = some v → v < m) := by
  match xs with
  | [] => exact absurd h (by simp [epsGreedyAgent.argmax])
  | x :: rest =>
    rw [epsGreedyAgent.argmax, Option.some.injEq] at h
    rw [epsGreedyAgent.argmaxAux, if_neg (lt_irrefl x)] at h
    have := argmaxAux_spec rest [x] 0 x (by simp) (by simp)
      (by
        intro j v hj
        match j with
        | 0 =>
          simp only [List.get?, Option.some.injEq] at hj
          exact le_of_eq hj.symm
        | j + 1 => exact absurd hj (by simp))
      (by intro j v hj; omega)
    simp only [List.length_cons, List.length_nil, List.singleton_append] at this
    rw [h] at this
    exact this

theorem argmaxAux_const (l : List ℚ) : ∀ (i best_i : ℕ) (best_v : ℚ),
    (∀ v ∈ l, v ≤ best_v) →
    epsGreedyAgent.argmaxAux l i best_i best_v = best_i := by
  induction l with
  | nil => intro i best_i best_v _; rfl
  | cons x rest ih =>
    intro i best_i best_v hall
    rw [epsGreedyAgent.argmaxAux,
      if_neg (not_lt.mpr (hall x (List.mem_cons_self x rest)))]
    exact ih _ _ _ (fun v hv => hall v (List.mem_cons_of_mem x hv))

/-! ## Claim C7 -/

/-- Claim C7: on each `recommendArm` call with non-empty history, the
Thompson agent ingests only the most recent observation `history[-1]`: if
its reward equals `1` that arm's alpha is incremented by `1`, otherwise
that arm's beta, and no other arm's state changes (the theorem quantifies
over an arbitrary history with the given last element, so the earlier
entries are provably ignored).  Consequently, starting from the prior
`(1,1)`, four calls each observing arm `0` — reward `1` three times then
reward `0` once — leave arm `0` at `Beta(alpha = 4, beta = 2)` and arm `1`
untouched at `(1,1)`. -/
theorem thompson_single_step_update :
    (∀ (num_arms : ℕ) (samples : List ℚ) (tie_pick : ℕ)
        (st : Option (List TArm)) (history : List Obs)
        (last_arm : ℤ) (last_reward : ℚ) (arms' : List TArm) (choice : ℤ),
      history.getLast? = some (last_arm, last_reward) →
      0 ≤ last_arm →
      last_arm < ((st.getD (List.replicate num_arms ⟨1, 1⟩)).length : ℤ) →
      thompsonAgent.recommendArm num_arms samples tie_pick st history =
        some (arms', choice) →
      ∃ cur, (st.getD (List.replicate num_arms ⟨1, 1⟩)).get? last_arm.toNat = some cur ∧
        arms'.get? last_arm.toNat =
          some (if last_reward = 1 then ⟨cur.alpha + 1, cur.beta⟩
                else ⟨cur.alpha, cur.beta + 1⟩) ∧
        ∀ j : ℕ, j ≠ last_arm.toNat →
          arms'.get? j = (st.getD (List.replicate num_arms ⟨1, 1⟩)).get? j) ∧
    ((do
      let r1 ← thompsonAgent.recommendArm 2 [1, 1] 0 none [((0 : ℤ), (1 : ℚ))]
      let r2 ← thompsonAgent.recommendArm 2 [1, 1] 0 (some r1.1) [((0 : ℤ), (1 : ℚ))]
      let r3 ← thompsonAgent.recommendArm 2 [1, 1] 0 (some r2.1) [((0 : ℤ), (1 : ℚ))]
      let r4 ← thompsonAgent.recommendArm 2 [1, 1] 0 (some r3.1) [((0 : ℤ), (0 : ℚ))]
      pure r4.1 : Option (List TArm)) = some [⟨4, 2⟩, ⟨1, 1⟩]) := by
  constructor
  · intro num_arms samples tie_pick st history la lr arms' choice hl hge hlt h
    set arms0 := st.getD (List.replicate num_arms ⟨1, 1⟩) with harms0
    rw [thompsonAgent.recommendArm] at h
    simp only [hl, ← harms0] at h
    rw [show (do
        let arms1 ← thompsonAgent.update arms0 la lr
        let max_sample ← Bandit.pyMax samples
        let best_arms := (samples.enum.filter (fun p => p.2 = max_sample)).map (·.1)
        let chosen ← best_arms.get? (tie_pick % best_arms.length)
        pure (arms1, (chosen : ℤ)) : Option (List TArm × ℤ)) =
      (thompsonAgent.update arms0 la lr).bind (fun arms1 =>
        (Bandit.pyMax samples).bind (fun max_sample =>
          (((samples.enum.filter (fun p => p.2 = max_sample)).map (·.1)).get?
              (tie_pick % ((samples.enum.filter (fun p => p.2 = max_sample)).map (·.1)).length)).bind
            (fun chosen => some (arms1, (chosen : ℤ))))) from rfl] at h
    obtain ⟨arms1, hupd, hrest⟩ := Option.bind_eq_some.mp h
    obtain ⟨mx, _, hrest2⟩ := Option.bind_eq_some.mp hrest
    obtain ⟨chosen, _, hpure⟩ := Option.bind_eq_some.mp hrest2
    obtain ⟨rfl, rfl⟩ : arms1 = arms' ∧ (chosen : ℤ) = choice := by
      constructor <;> [exact congrArg Prod.fst (Option.some.injEq _ _ ▸ hpure : _);
        exact congrArg Prod.snd (Option.some.injEq _ _ ▸ hpure : _)]
    rw [thompsonAgent.update] at hupd
    have hk : la.toNat < arms0.length := by omega
    have hget : pyGet arms0 la = arms0.get? la.toNat := by
      rw [pyGet, if_pos hge]
    rw [hget, List.get?_eq_get hk] at hupd
    simp only [Option.bind_eq_bind, Option.some_bind] at hupd
    have hset : pySet arms0 la
        (if lr = 1 then ⟨(arms0.get ⟨la.toNat, hk⟩).alpha + 1, (arms0.get ⟨la.toNat, hk⟩).beta⟩
         else ⟨(arms0.get ⟨la.toNat, hk⟩).alpha, (arms0.get ⟨la.toNat, hk⟩).beta + 1⟩) =
        some (arms0.set la.toNat
          (if lr = 1 then ⟨(arms0.get ⟨la.toNat, hk⟩).alpha + 1, (arms0.get ⟨la.toNat, hk⟩).beta⟩
           else ⟨(arms0.get ⟨la.toNat, hk⟩).alpha, (arms0.get ⟨la.toNat, hk⟩).beta + 1⟩)) := by
      rw [pySet, if_pos hge, if_pos (by omega)]
    rw [hset, Option.some.injEq] at hupd
    refine ⟨arms0.get ⟨la.toNat, hk⟩, List.get?_eq_get hk, ?_, ?_⟩
    · rw [← hupd, List.get?_set_eq_of_lt _ hk]
    · intro j hj
      rw [← hupd, List.get?_set_ne _ _ (fun hcontra => hj hcontra.symm)]
  · norm_num [thompsonAgent.recommendArm, thompsonAgent.update, pyGet, pySet,
      Bandit.pyMax, List.enum, List.enumFrom]
    decide

/-- Claim C7 witness: the single-step update applied at a concrete call —
two arms at the prior, history ending with arm `1` rewarded `0`. -/
theorem thompson_single_step_update_witness :
    ∃ cur : TArm,
      ((none : Option (List TArm)).getD (List.replicate 2 ⟨1, 1⟩)).get? (1 : ℤ).toNat =
        some cur ∧
      ([⟨1, 1⟩, ⟨1, 2⟩] : List TArm).get? (1 : ℤ).toNat =
        some (if (0 : ℚ) = 1 then ⟨cur.alpha + 1, cur.beta⟩
              else ⟨cur.alpha, cur.beta + 1⟩) ∧
      ∀ j : ℕ, j ≠ (1 : ℤ).toNat →
        ([⟨1, 1⟩, ⟨1, 2⟩] : List TArm).get? j =
          ((none : Option (List TArm)).getD (List.replicate 2 ⟨1, 1⟩)).get? j :=
  thompson_single_step_update.1 2 [1, 1] 0 none [((1 : ℤ), (0 : ℚ))] 1 0
    [⟨1, 1⟩, ⟨1, 2⟩] 0 (by decide) (by decide) (by decide) (by decide)

/-! ## Claim C10 -/

/-- Claim C10: with `epsilon = 0`, the epsilon-greedy agent never takes the
exploration branch — for every uniform draw `u ∈ [0,1)` (indeed any
`u ≥ 0`), every successful call returns the arm whose running mean is
maximal, ties broken by lowest index via the left-to-right strict scan; and
on a fresh agent with no observations all means are `0.0` and the call
deterministically returns arm `0`. -/
theorem greedy_eps_zero_no_explore :
    (∀ (u : ℚ) (pick num_arms : ℕ) (st : Option GreedyState) (history : List Obs)
        (st' : GreedyState) (c : ℕ),
      0 ≤ u →
      epsGreedyAgent.recommendArm 0 u pick num_arms st history = some (st', c) →
      ∃ m, st'.arm_values.get? c = some m ∧
        (∀ j v, st'.arm_values.get? j = some v → v ≤ m) ∧
        (∀ j v, j < c → st'.arm_values.get? j = some v → v < m)) ∧
    (∀ (u : ℚ) (pick num_arms : ℕ), 0 ≤ u → 1 ≤ num_arms →
      epsGreedyAgent.recommendArm 0 u pick num_arms none [] =
        some (⟨List.replicate num_arms 0, List.replicate num_arms 0⟩, 0)) := by
  constructor
  · intro u pick num_arms st history st' c hu h
    rw [epsGreedyAgent.recommendArm] at h
    simp only [Option.bind_eq_bind] at h
    obtain ⟨st1, _, hrest⟩ := Option.bind_eq_some.mp h
    rw [if_neg (not_lt.mpr hu)] at hrest
    obtain ⟨c', harg, hpure⟩ := Option.bind_eq_some.mp hrest
    obtain ⟨m, hm, hle, hlt⟩ := argmax_spec harg
    simp only [Option.pure_def, Option.some.injEq, Prod.mk.injEq] at hpure
    obtain ⟨h1, h2⟩ := hpure
    subst h1
    subst h2
    exact ⟨m, hm, hle, hlt⟩
  · intro u pick num_arms hu hn
    rw [epsGreedyAgent.recommendArm]
    simp only [epsGreedyAgent.ensure_init, Option.getD_none,
      epsGreedyAgent.ingest_history, Option.bind_eq_bind, Option.some_bind]
    rw [if_neg (not_lt.mpr hu)]
    obtain ⟨m, rfl⟩ := Nat.exists_eq_add_of_le hn
    rw [show List.replicate (1 + m) (0 : ℚ) = 0 :: List.replicate m 0 by
      rw [Nat.add_comm]; exact List.replicate_succ 0 m]
    rw [epsGreedyAgent.argmax]
    rw [epsGreedyAgent.argmaxAux, if_neg (lt_irrefl (0 : ℚ))]
    rw [argmaxAux_const _ _ _ _ (by
      intro v hv
      rw [List.eq_of_mem_replicate hv])]
    rfl

/-- Claim C10 witness: a concrete exploit call — fresh two-arm agent fed
one observation `(arm 0, reward 1)` with `u = 1/2`: it returns arm `0`,
whose mean `1` is the strict maximum. -/
theorem greedy_eps_zero_no_explore_witness :
    ∃ m, ([1, 0] : List ℚ).get? 0 = some m ∧
      (∀ j v, ([1, 0] : List ℚ).get? j = some v → v ≤ m) ∧
      (∀ j v, j < 0 → ([1, 0] : List ℚ).get? j = some v → v < m) :=
  greedy_eps_zero_no_explore.1 (1/2) 0 2 none [((0 : ℤ), (1 : ℚ))] ⟨[1, 0], [1, 0]⟩ 0
    (by norm_num)
    (by norm_num [epsGreedyAgent.recommendArm, epsGreedyAgent.ensure_init,
      epsGreedyAgent.ingest_history, epsGreedyAgent.argmax, epsGreedyAgent.argmaxAux,
      pyGet, pySet, List.replicate, List.set])

/-! ## Claim C5: incremental mean versus naive recomputation -/

/-- The naive recomputation from the spec: the rewards observed on arm `i`
within the pair sequence `h`, in order. -/
def armRewards (h : List Obs) (i : ℕ) : List ℚ :=
  (h.filter (fun p => p.1 = (i : ℤ))).map Prod.snd

theorem armRewards_nil (i : ℕ) : armRewards [] i = [] := rfl

theorem armRewards_cons_eq {a : ℤ} (r : ℚ) (rest : List Obs) {i : ℕ}
    (ha : a = (i : ℤ)) : armRewards ((a, r) :: rest) i = r :: armRewards rest i := by
  simp [armRewards, List.filter_cons, ha]

theorem armRewards_cons_ne {a : ℤ} (r : ℚ) (rest : List Obs) {i : ℕ}
    (ha : a ≠ (i : ℤ)) : armRewards ((a, r) :: rest) i = armRewards rest i := by
  simp [armRewards, List.filter_cons, ha]

theorem pyGet_int {α : Type _} (xs : List α) {i : ℤ} (h0 : 0 ≤ i) :
    pyGet xs i = xs.get? i.toNat := by
  rw [pyGet, if_pos h0]

theorem pySet_int {α : Type _} (xs : List α) {i : ℤ} (h0 : 0 ≤ i)
    (hlt : i < (xs.length : ℤ)) (v : α) : pySet xs i v = some (xs.set i.toNat v) := by
  rw [pySet, if_pos h0, if_pos hlt]

/-- The heart of claim C5, proved over an arbitrary starting state: the
greedy incremental update succeeds on in-range histories, preserves the
array sizes, adds the per-arm observation count to each arm's counter, and
keeps the invariant `mean * count = sum of that arm's rewards` (exactly, in
`ℚ`); an arm with no new observations keeps its mean. -/
theorem ingest_history_spec (h : List Obs) : ∀ (st : GreedyState),
    st.arm_values.length = st.arm_counts.length →
    (∀ p ∈ h, 0 ≤ p.1 ∧ p.1 < (st.arm_counts.length : ℤ)) →
    ∃ st', epsGreedyAgent.ingest_history st h = some st' ∧
      st'.arm_counts.length = st.arm_counts.length ∧
      st'.arm_values.length = st.arm_values.length ∧
      ∀ (i : ℕ) (c0 : ℕ) (v0 : ℚ),
        st.arm_counts.get? i = some c0 → st.arm_values.get? i = some v0 →
        st'.arm_counts.get? i = some (c0 + (armRewards h i).length) ∧
        ∃ v1, st'.arm_values.get? i = some v1 ∧
          v1 * ((c0 : ℚ) + ((armRewards h i).length : ℚ)) =
            v0 * (c0 : ℚ) + (armRewards h i).sum ∧
          ((armRewards h i).length = 0 → v1 = v0) := by
  induction h with
  | nil =>
    intro st hlen _
    refine ⟨st, rfl, rfl, rfl, ?_⟩
    intro i c0 v0 hc hv
    refine ⟨by simpa [armRewards_nil] using hc, v0, hv, ?_, fun _ => rfl⟩
    rw [armRewards_nil]
    simp
  | cons p rest ih =>
    intro st hlen hvalid
    obtain ⟨a, r⟩ := p
    obtain ⟨ha0, halt⟩ := hvalid (a, r) (List.mem_cons_self _ _)
    have hk : a.toNat < st.arm_counts.length := by omega
    have hkv : a.toNat < st.arm_values.length := by omega
    set n_old := st.arm_counts.get ⟨a.toNat, hk⟩ with hn_old
    set m_old := st.arm_values.get ⟨a.toNat, hkv⟩ with hm_old
    set m_new : ℚ := m_old + (r - m_old) / ((n_old + 1 : ℕ) : ℚ) with hm_new
    have hstep : epsGreedyAgent.ingest_history st ((a, r) :: rest) =
        epsGreedyAgent.ingest_history
          ⟨st.arm_counts.set a.toNat (n_old + 1), st.arm_values.set a.toNat m_new⟩ rest := by
      rw [epsGreedyAgent.ingest_history]
      rw [pyGet_int _ ha0, pyGet_int _ ha0, List.get?_eq_get hk, List.get?_eq_get hkv]
      dsimp only
      rw [pySet_int _ ha0 (by omega), pySet_int _ ha0 (by omega)]
    set st1 : GreedyState :=
      ⟨st.arm_counts.set a.toNat (n_old + 1), st.arm_values.set a.toNat m_new⟩ with hst1
    have hlen1c : st1.arm_counts.length = st.arm_counts.length := by
      simp [hst1]
    have hlen1v : st1.arm_values.length = st.arm_values.length := by
      simp [hst1]
    obtain ⟨st', hing, hlc, hlv, hspec⟩ := ih st1
      (by rw [hlen1c, hlen1v, hlen])
      (by
        intro q hq
        rw [hlen1c]
        exact hvalid q (List.mem_cons_of_mem _ hq))
    refine ⟨st', by rw [hstep]; exact hing, by rw [hlc, hlen1c],
      by rw [hlv, hlen1v], ?_⟩
    intro i c0 v0 hc hv
    have hka : a = (a.toNat : ℤ) := (Int.toNat_of_nonneg ha0).symm
    by_cases hik : i = a.toNat
    · subst hik
      have hc0 : c0 = n_old := by
        rw [List.get?_eq_get hk] at hc
        exact (Option.some.inj hc).symm
      have hv0 : v0 = m_old := by
        rw [List.get?_eq_get hkv] at hv
        exact (Option.some.inj hv).symm
      subst hc0
      subst hv0
      have h1c : st1.arm_counts.get? a.toNat = some (n_old + 1) :=
        List.get?_set_eq_of_lt _ hk
      have h1v : st1.arm_values.get? a.toNat = some m_new :=
        List.get?_set_eq_of_lt _ hkv
      obtain ⟨hcount, v1, hval, heq, _⟩ := hspec a.toNat (n_old + 1) m_new h1c h1v
      have hAR : armRewards ((a, r) :: rest) a.toNat = r :: armRewards rest a.toNat :=
        armRewards_cons_eq r rest hka
      constructor
      · rw [hAR, List.length_cons, hcount]
        congr 1
        omega
      · refine ⟨v1, hval, ?_, ?_⟩
        · rw [hAR, List.length_cons, List.sum_cons]
          have hne : ((n_old + 1 : ℕ) : ℚ) ≠ 0 := by
            push_cast
            positivity
          have hmn : m_new * ((n_old + 1 : ℕ) : ℚ) = m_old * (n_old : ℚ) + r := by
            rw [hm_new]
            field_simp
            ring
          push_cast at heq hmn ⊢
          linear_combination heq + hmn
        · intro h0
          rw [hAR] at h0
          exact absurd h0 (by simp)
    · have h1c : st1.arm_counts.get? i = some c0 := by
        rw [show st1.arm_counts = st.arm_counts.set a.toNat (n_old + 1) from rfl]
        rw [List.get?_set_ne _ _ (fun hcontra => hik hcontra.symm)]
        exact hc
      have h1v : st1.arm_values.get? i = some v0 := by
        rw [show st1.arm_values = st.arm_values.set a.toNat m_new from rfl]
        rw [List.get?_set_ne _ _ (fun hcontra => hik hcontra.symm)]
        exact hv
      have hAR : armRewards ((a, r) :: rest) i = armRewards rest i := by
        refine armRewards_cons_ne r rest ?_
        intro hcontra
        apply hik
        have h2 : (a.toNat : ℤ) = (i : ℤ) := by
          rw [← hka]
          exact hcontra
        exact_mod_cast h2.symm
      rw [hAR]
      exact hspec i c0 v0 h1c h1v

/-- The UCB ingest is the greedy ingest plus `total_counts += 1` per
observation (the two loops in the source are line-for-line identical apart
from the `total_counts` update). -/
theorem ucb_ingest_eq (h : List Obs) : ∀ (st : UCBState),
    UCBAgent.ingest_history st h =
      (epsGreedyAgent.ingest_history ⟨st.arm_counts, st.arm_values⟩ h).map
        (fun g => ⟨g.arm_counts, g.arm_values, st.total_counts + h.length⟩) := by
  induction h with
  | nil => intro st; rfl
  | cons p rest ih =>
    intro st
    obtain ⟨a, r⟩ := p
    rw [UCBAgent.ingest_history, epsGreedyAgent.ingest_history]
    cases hc : pyGet st.arm_counts a with
    | none => rfl
    | some n_old =>
      cases hv : pyGet st.arm_values a with
      | none => rfl
      | some m_old =>
        simp only
        cases hsc : pySet st.arm_counts a (n_old + 1) with
        | none => rfl
        | some counts' =>
          cases hsv : pySet st.arm_values a
              (m_old + (r - m_old) / ((n_old + 1 : ℕ) : ℚ)) with
          | none => rfl
          | some values' =>
            simp only
            rw [ih ⟨counts', values', st.total_counts + 1⟩]
            simp only [List.length_cons]
            congr 1
            funext g
            simp only [UCBState.mk.injEq]
            refine ⟨trivial, trivial, by omega⟩
theorem get?_replicate_of_lt {α : Type _} {n i : ℕ} (a : α) (h : i < n) :
    (List.replicate n a).get? i = some a := by
  rw [List.get?_eq_get (by simpa using h)]
  simp [List.get_replicate]

/-- Claim C5: after the epsilon-greedy or UCB agent ingests any in-range
finite sequence of `(arm, reward)` pairs starting from freshly initialized
statistics, each arm's stored count equals the number of observations of
that arm, and each arm's stored running mean equals the arithmetic mean of
that arm's rewards (the naive recomputation) — exactly, in `ℚ`; an arm
never observed keeps mean `0`.  The two agents' statistics coincide, and
the UCB agent's `total_counts` equals the number of ingested pairs. -/
theorem incremental_mean_eq_naive (num_arms : ℕ) (h : List Obs)
    (hvalid : ∀ p ∈ h, 0 ≤ p.1 ∧ p.1 < (num_arms : ℤ)) :
    ∃ stG stU,
      epsGreedyAgent.ingest_history
        ⟨List.replicate num_arms 0, List.replicate num_arms 0⟩ h = some stG ∧
      UCBAgent.ingest_history
        ⟨List.replicate num_arms 0, List.replicate num_arms 0, 0⟩ h = some stU ∧
      stU.arm_counts = stG.arm_counts ∧
      stU.arm_values = stG.arm_values ∧
      stU.total_counts = h.length ∧
      ∀ i : ℕ, i < num_arms →
        stG.arm_counts.get? i = some (armRewards h i).length ∧
        ((armRewards h i).length ≠ 0 →
          stG.arm_values.get? i =
            some ((armRewards h i).sum / ((armRewards h i).length : ℚ))) ∧
        ((armRewards h i).length = 0 → stG.arm_values.get? i = some 0) := by
  obtain ⟨stG, hing, hlc, hlv, hspec⟩ :=
    ingest_history_spec h ⟨List.replicate num_arms 0, List.replicate num_arms 0⟩
      (by simp)
      (by simpa using hvalid)
  refine ⟨stG, ⟨stG.arm_counts, stG.arm_values, 0 + h.length⟩, hing, ?_, rfl, rfl,
    Nat.zero_add _, ?_⟩
  · rw [ucb_ingest_eq]
    rw [show (⟨List.replicate num_arms 0, List.replicate num_arms 0, 0⟩ :
        UCBState).arm_counts = List.replicate num_arms 0 from rfl]
    rw [show (⟨List.replicate num_arms 0, List.replicate num_arms 0, 0⟩ :
        UCBState).arm_values = List.replicate num_arms (0 : ℚ) from rfl]
    rw [hing]
    rfl
  · intro i hi
    obtain ⟨hcount, v1, hval, heq, hzero⟩ :=
      hspec i 0 0 (get?_replicate_of_lt 0 hi) (get?_replicate_of_lt 0 hi)
    refine ⟨by simpa using hcount, ?_, ?_⟩
    · intro hne
      rw [hval]
      congr 1
      rw [eq_div_iff (by exact_mod_cast hne)]
      have := heq
      push_cast at this ⊢
      linarith
    · intro h0
      rw [hval, hzero h0]

/-- Claim C5 witness: ingesting `[(0,1), (1,0), (0,0)]` on two arms — arm
`0` ends with count `2` and mean `1/2`, arm `1` with count `1` and mean
`0`. -/
theorem incremental_mean_eq_naive_witness :
    ∃ stG stU,
      epsGreedyAgent.ingest_history
        ⟨List.replicate 2 0, List.replicate 2 0⟩
        [((0 : ℤ), (1 : ℚ)), ((1 : ℤ), (0 : ℚ)), ((0 : ℤ), (0 : ℚ))] = some stG ∧
      UCBAgent.ingest_history
        ⟨List.replicate 2 0, List.replicate 2 0, 0⟩
        [((0 : ℤ), (1 : ℚ)), ((1 : ℤ), (0 : ℚ)), ((0 : ℤ), (0 : ℚ))] = some stU ∧
      stU.arm_counts = stG.arm_counts ∧
      stU.arm_values = stG.arm_values ∧
      stU.total_counts =
        ([((0 : ℤ), (1 : ℚ)), ((1 : ℤ), (0 : ℚ)), ((0 : ℤ), (0 : ℚ))] : List Obs).length ∧
      ∀ i : ℕ, i < 2 →
        stG.arm_counts.get? i =
          some (armRewards [((0 : ℤ), (1 : ℚ)), ((1 : ℤ), (0 : ℚ)), ((0 : ℤ), (0 : ℚ))] i).length ∧
        ((armRewards [((0 : ℤ), (1 : ℚ)), ((1 : ℤ), (0 : ℚ)), ((0 : ℤ), (0 : ℚ))] i).length ≠ 0 →
          stG.arm_values.get? i =
            some ((armRewards [((0 : ℤ), (1 : ℚ)), ((1 : ℤ), (0 : ℚ)), ((0 : ℤ), (0 : ℚ))] i).sum /
              ((armRewards [((0 : ℤ), (1 : ℚ)), ((1 : ℤ), (0 : ℚ)), ((0 : ℤ), (0 : ℚ))] i).length : ℚ))) ∧
        ((armRewards [((0 : ℤ), (1 : ℚ)), ((1 : ℤ), (0 : ℚ)), ((0 : ℤ), (0 : ℚ))] i).length = 0 →
          stG.arm_values.get? i = some 0) :=
  incremental_mean_eq_naive 2
    [((0 : ℤ), (1 : ℚ)), ((1 : ℤ), (0 : ℚ)), ((0 : ℤ), (0 : ℚ))] (by decide)

/-! ## Runner loop invariants (claims C8, C9) -/

/-- Induction workhorse for the runner: a successful `runLoop` produces two
series of length `n`; prefixing each with its starting total gives a
`≤`-chain (each entry extends the running total by a non-negative step),
and every reward entry gains at most `1` per round over the starting
total. -/
theorem runLoop_spec {σ : Type _} {arms : List ℚ} {best : ℚ}
    (hbest : Bandit.pyMax arms = some best)
    (agentStep : ℕ → σ → List Obs → Option (σ × ℤ)) (banditRand : ℕ → ℚ) :
    ∀ (n t : ℕ) (s : σ) (hist : List Obs) (totR totG : ℚ)
      (sf : σ) (hf : List Obs) (rs gs : List ℚ),
      runLoop arms best agentStep banditRand n t s hist totR totG =
        some (sf, hf, rs, gs) →
      rs.length = n ∧ gs.length = n ∧
      List.Chain' (· ≤ ·) (totR :: rs) ∧
      List.Chain' (· ≤ ·) (totG :: gs) ∧
      (∀ (i : ℕ) (x : ℚ), rs.get? i = some x → totR ≤ x ∧ x ≤ totR + (i + 1)) := by
  intro n
  induction n with
  | zero =>
    intro t s hist totR totG sf hf rs gs hrun
    rw [runLoop] at hrun
    simp only [Option.some.injEq, Prod.mk.injEq] at hrun
    obtain ⟨-, -, hrs, hgs⟩ := hrun
    subst hrs
    subst hgs
    refine ⟨rfl, rfl, by simp, by simp, ?_⟩
    intro i x hx
    exact absurd hx (by simp)
  | succ n ih =>
    intro t s hist totR totG sf hf rs gs hrun
    rw [runLoop] at hrun
    cases hstep : agentStep t s hist with
    | none => rw [hstep] at hrun; exact absurd hrun (by simp)
    | some pr =>
      obtain ⟨s', a⟩ := pr
      rw [hstep] at hrun
      dsimp only at hrun
      cases hget : pyGet arms a with
      | none => rw [hget] at hrun; exact absurd hrun (by simp)
      | some p =>
        rw [hget] at hrun
        dsimp only at hrun
        set r : ℚ := if banditRand t ≤ p then 1 else 0 with hr
        cases hrec : runLoop arms best agentStep banditRand n (t + 1) s'
            (hist ++ [(a, r)]) (totR + r) (totG + (best - p)) with
        | none => rw [hrec] at hrun; exact absurd hrun (by simp)
        | some res =>
          obtain ⟨sf', hf', rs', gs'⟩ := res
          rw [hrec] at hrun
          simp only [Option.some.injEq, Prod.mk.injEq] at hrun
          obtain ⟨-, -, hrs, hgs⟩ := hrun
          obtain ⟨hlr, hlg, hcr, hcg, hbnd⟩ :=
            ih (t + 1) s' (hist ++ [(a, r)]) (totR + r) (totG + (best - p))
              sf' hf' rs' gs' hrec
          have hr0 : 0 ≤ r := by
            rw [hr]
            split <;> norm_num
          have hr1 : r ≤ 1 := by
            rw [hr]
            split <;> norm_num
          have hg0 : 0 ≤ best - p :=
            sub_nonneg.mpr (Bandit.le_pyMax hbest p (pyGet_mem hget))
          subst hrs
          subst hgs
          refine ⟨by simp [hlr], by simp [hlg], ?_, ?_, ?_⟩
          · exact List.Chain'.cons (by linarith) hcr
          · exact List.Chain'.cons (by linarith) hcg
          · intro i x hx
            match i with
            | 0 =>
              simp only [List.get?] at hx
              obtain rfl := Option.some.inj hx
              constructor
              · linarith
              · push_cast
                linarith
            | i + 1 =>
              simp only [List.get?] at hx
              obtain ⟨h1, h2⟩ := hbnd i x hx
              constructor
              · linarith
              · push_cast at h2 ⊢
                linarith

/-- Claim C8: whatever the agent (any state type, any step function, any
randomness), a successful `run_experiment` returns two series of length
`num_plays`, each monotonically non-decreasing in the round index. -/
theorem run_sequences_length_monotone {σ : Type _} (bandit : Bandit)
    (num_plays : ℕ) (agentInit : σ)
    (agentStep : ℕ → σ → List Obs → Option (σ × ℤ)) (banditRand : ℕ → ℚ)
    (sf : σ) (hf : List Obs) (rs gs : List ℚ)
    (hrun : run_experiment bandit num_plays agentInit agentStep banditRand =
      some (sf, hf, rs, gs)) :
    rs.length = num_plays ∧ gs.length = num_plays ∧
    (∀ (i j : ℕ), i ≤ j → ∀ (x y : ℚ),
      rs.get? i = some x → rs.get? j = some y → x ≤ y) ∧
    (∀ (i j : ℕ), i ≤ j → ∀ (x y : ℚ),
      gs.get? i = some x → gs.get? j = some y → x ≤ y) := by
  rw [run_experiment] at hrun
  cases hbest : Bandit.pyMax bandit.arms with
  | none => rw [hbest] at hrun; exact absurd hrun (by simp)
  | some best =>
    rw [hbest] at hrun
    obtain ⟨hlr, hlg, hcr, hcg, -⟩ :=
      runLoop_spec hbest agentStep banditRand num_plays 0 agentInit [] 0 0
        sf hf rs gs hrun
    have hmono : ∀ (l : List ℚ), List.Chain' (· ≤ ·) l →
        ∀ (i j : ℕ), i ≤ j → ∀ (x y : ℚ),
          l.get? i = some x → l.get? j = some y → x ≤ y := by
      intro l hl i j hij x y hx hy
      rcases eq_or_lt_of_le hij with rfl | hlt
      · rw [hx] at hy
        exact le_of_eq (Option.some.inj hy)
      · have hp := (List.chain'_iff_pairwise).mp hl
        obtain ⟨hi, hxg⟩ := List.get?_eq_some.mp hx
        obtain ⟨hj, hyg⟩ := List.get?_eq_some.mp hy
        have := List.pairwise_iff_get.mp hp ⟨i, hi⟩ ⟨j, hj⟩ hlt
        rw [hxg] at this
        rw [hyg] at this
        exact this
    exact ⟨hlr, hlg, hmono rs hcr.tail, hmono gs hcg.tail⟩

/-- Claim C8 witness: a one-round run of a trivial always-arm-0 agent on a
one-arm bandit. -/
theorem run_sequences_length_monotone_witness :
    ([(1 : ℚ)] : List ℚ).length = 1 ∧ ([(0 : ℚ)] : List ℚ).length = 1 ∧
    (∀ (i j : ℕ), i ≤ j → ∀ (x y : ℚ),
      ([(1 : ℚ)] : List ℚ).get? i = some x →
      ([(1 : ℚ)] : List ℚ).get? j = some y → x ≤ y) ∧
    (∀ (i j : ℕ), i ≤ j → ∀ (x y : ℚ),
      ([(0 : ℚ)] : List ℚ).get? i = some x →
      ([(0 : ℚ)] : List ℚ).get? j = some y → x ≤ y) :=
  run_sequences_length_monotone ⟨[1]⟩ 1 () (fun _ s _ => some (s, 0)) (fun _ => 0)
    () [((0 : ℤ), (1 : ℚ))] [1] [0]
    (by norm_num [run_experiment, Bandit.pyMax, runLoop, pyGet])

/-- Claim C9: in every successful experiment run, the cumulative reward
recorded at round `t` (rounds numbered from 1, as in the runner's own debug
output, so the entry at list index `t - 1`) lies in `[0, t]`. -/
theorem cumulative_reward_bounds {σ : Type _} (bandit : Bandit)
    (num_plays : ℕ) (agentInit : σ)
    (agentStep : ℕ → σ → List Obs → Option (σ × ℤ)) (banditRand : ℕ → ℚ)
    (sf : σ) (hf : List Obs) (rs gs : List ℚ)
    (hrun : run_experiment bandit num_plays agentInit agentStep banditRand =
      some (sf, hf, rs, gs)) :
    ∀ t : ℕ, 1 ≤ t → t ≤ num_plays →
      ∃ x : ℚ, rs.get? (t - 1) = some x ∧ 0 ≤ x ∧ x ≤ (t : ℚ) := by
  rw [run_experiment] at hrun
  cases hbest : Bandit.pyMax bandit.arms with
  | none => rw [hbest] at hrun; exact absurd hrun (by simp)
  | some best =>
    rw [hbest] at hrun
    obtain ⟨hlr, -, -, -, hbnd⟩ :=
      runLoop_spec hbest agentStep banditRand num_plays 0 agentInit [] 0 0
        sf hf rs gs hrun
    intro t ht1 htn
    have hne : rs.get? (t - 1) ≠ none := by
      rw [Ne, List.get?_eq_none]
      omega
    obtain ⟨x, hx⟩ := Option.ne_none_iff_exists'.mp hne
    obtain ⟨h0, h1⟩ := hbnd (t - 1) x hx
    refine ⟨x, hx, by linarith, ?_⟩
    rw [Nat.cast_sub ht1] at h1
    push_cast at h1
    linarith

/-- Claim C9 witness: the same one-round always-arm-0 run, at round `t = 1`
— the recorded cumulative reward is `1 ∈ [0, 1]`. -/
theorem cumulative_reward_bounds_witness :
    ∃ x : ℚ, ([(1 : ℚ)] : List ℚ).get? (1 - 1) = some x ∧ 0 ≤ x ∧ x ≤ ((1 : ℕ) : ℚ) :=
  cumulative_reward_bounds ⟨[1]⟩ 1 () (fun _ s _ => some (s, 0)) (fun _ => 0)
    () [((0 : ℤ), (1 : ℚ))] [1] [0]
    (by norm_num [run_experiment, Bandit.pyMax, runLoop, pyGet]) 1 le_rfl le_rfl

/-! ## Claim C1 -/

/-- Claim C1 is violated by the code: `run_experiment` passes the agent the
FULL accumulated history every round (the list is appended to and re-passed
whole), while the agents' own docstrings assume only the new observations
arrive.  Concretely: a 4-round run on a one-arm bandit with the greedy
agent (exploit every round) ends with `arm_counts = [6]` although arm `0`
was observed only 4 times in the whole experiment, and only 3 of those
observations were ever passed to the agent (the round-0 observation alone
is re-ingested three times: 0 + 1 + 2 + 3 = 6 ingests).  Updating exactly
once per observation would give a count of at most 4, so `6 ≠ 4` is the
contradiction with the claim. -/
theorem history_replay_inflates_counts :
    run_experiment ⟨[1/2]⟩ 4 (none : Option GreedyState)
        (epsGreedyAgent.step (1/10) (fun _ => 1/2) (fun _ => 0) 1)
        (fun t => if t = 1 then 1 else 0) =
      some (some ⟨[6], [2/3]⟩,
        [((0 : ℤ), (1 : ℚ)), ((0 : ℤ), (0 : ℚ)), ((0 : ℤ), (1 : ℚ)), ((0 : ℤ), (1 : ℚ))],
        [1, 1, 2, 3], [0, 0, 0, 0]) ∧
    (6 : ℕ) ≠ ([((0 : ℤ), (1 : ℚ)), ((0 : ℤ), (0 : ℚ)), ((0 : ℤ), (1 : ℚ)),
        ((0 : ℤ), (1 : ℚ))] : List Obs).length := by
  constructor
  · norm_num [run_experiment, Bandit.pyMax, runLoop, pyGet, pySet,
      epsGreedyAgent.step, epsGreedyAgent.recommendArm, epsGreedyAgent.ensure_init,
      epsGreedyAgent.ingest_history, epsGreedyAgent.argmax, epsGreedyAgent.argmaxAux,
      List.replicate, List.set]
  · decide

/-! ## Claim C2 -/

/-- Claim C2 is violated by the code: `main` seeds only Python's `random`
module, but `thompsonAgent.recommendArm` draws its per-arm Beta samples
from `np.random.beta` — numpy's separate global generator, which
`random.seed(seed)` does not touch.  With every Python-stream draw held
fixed (same seed), two runs whose numpy streams differ pick different arms
on round 0 and produce different outputs, so the experiment is not a
function of the seed and the randomness is not one shared stream. -/
theorem thompson_breaks_seed_reproducibility :
    run_experiment ⟨[1, 0]⟩ 1 (none : Option (List TArm))
        (thompsonAgent.step (fun _ => [9/10, 1/10]) (fun _ => 0) 2)
        (fun _ => 1/2) ≠
      run_experiment ⟨[1, 0]⟩ 1 (none : Option (List TArm))
        (thompsonAgent.step (fun _ => [1/10, 9/10]) (fun _ => 0) 2)
        (fun _ => 1/2) := by
  have hA : run_experiment ⟨[1, 0]⟩ 1 (none : Option (List TArm))
      (thompsonAgent.step (fun _ => [9/10, 1/10]) (fun _ => 0) 2)
      (fun _ => 1/2) =
      some (some [⟨1, 1⟩, ⟨1, 1⟩], [((0 : ℤ), (1 : ℚ))], [1], [0]) := by
    norm_num [run_experiment, Bandit.pyMax, runLoop, pyGet,
      thompsonAgent.step, thompsonAgent.recommendArm, thompsonAgent.update,
      List.enum, List.enumFrom, List.replicate]
  have hB : run_experiment ⟨[1, 0]⟩ 1 (none : Option (List TArm))
      (thompsonAgent.step (fun _ => [1/10, 9/10]) (fun _ => 0) 2)
      (fun _ => 1/2) =
      some (some [⟨1, 1⟩, ⟨1, 1⟩], [((1 : ℤ), (0 : ℚ))], [0], [1]) := by
    norm_num [run_experiment, Bandit.pyMax, runLoop, pyGet,
      thompsonAgent.step, thompsonAgent.recommendArm, thompsonAgent.update,
      List.enum, List.enumFrom, List.replicate]
  intro hcontra
  rw [hA, hB] at hcontra
  simp at hcontra

/-! ## Claim C6: UCB warm-up -/

theorem firstZero_eq_none_iff (counts : List ℕ) (num_arms : ℕ) :
    UCBAgent.firstZero counts num_arms = none ↔
      ∀ l < num_arms, counts.get? l ≠ some 0 := by
  rw [UCBAgent.firstZero, List.find?_eq_none]
  constructor
  · intro h l hl hc
    have := h l (List.mem_range.mpr hl)
    rw [hc] at this
    simp at this
  · intro h x hx
    rw [Bool.not_eq_true, beq_eq_false_iff_ne]
    exact h x (List.mem_range.mp hx)

theorem firstZero_eq_some_of (counts : List ℕ) : ∀ (num_arms j : ℕ),
    j < num_arms → counts.get? j = some 0 →
    (∀ l < j, counts.get? l ≠ some 0) →
    UCBAgent.firstZero counts num_arms = some j := by
  intro num_arms
  induction num_arms with
  | zero => intro j hj; omega
  | succ m ih =>
    intro j hj hzero hbefore
    rw [UCBAgent.firstZero, List.range_succ, List.find?_append]
    rcases lt_or_eq_of_le (Nat.lt_succ_iff.mp hj) with hjm | hjm
    · rw [show (List.range m).find? (fun i => counts.get? i == some 0) =
          UCBAgent.firstZero counts m from rfl, ih j hjm hzero hbefore]
      rfl
    · subst hjm
      rw [show (List.range j).find? (fun i => counts.get? i == some 0) =
          UCBAgent.firstZero counts j from rfl,
        (firstZero_eq_none_iff counts j).mpr hbefore]
      simp only [Option.none_or, List.find?_cons, hzero, beq_self_eq_true]

theorem firstZero_spec (counts : List ℕ) : ∀ (num_arms j : ℕ),
    UCBAgent.firstZero counts num_arms = some j →
    j < num_arms ∧ counts.get? j = some 0 ∧ ∀ l < j, counts.get? l ≠ some 0 := by
  intro num_arms
  induction num_arms with
  | zero => intro j h; exact absurd h (by simp [UCBAgent.firstZero])
  | succ m ih =>
    intro j h
    rw [UCBAgent.firstZero, List.range_succ, List.find?_append] at h
    cases hm : UCBAgent.firstZero counts m with
    | some j' =>
      rw [show (List.range m).find? (fun i => counts.get? i == some 0) =
          UCBAgent.firstZero counts m from rfl, hm,
        show (some j').or (List.find? (fun i => counts.get? i == some 0) [m]) =
          some j' from rfl] at h
      obtain rfl : j' = j := Option.some.inj h
      obtain ⟨h1, h2, h3⟩ := ih _ hm
      exact ⟨by omega, h2, h3⟩
    | none =>
      rw [show (List.range m).find? (fun i => counts.get? i == some 0) =
          UCBAgent.firstZero counts m from rfl, hm] at h
      simp only [Option.none_or] at h
      have hid : ∀ x ∈ [m], (fun i => counts.get? i == some 0) x = true ∧ x = j := by
        intro x hx
        obtain rfl := List.mem_singleton.mp hx
        have := List.find?_some h
        have hmem := List.mem_singleton.mp (List.find?_mem h)
        exact ⟨by rw [← hmem]; exact this, hmem.symm⟩
      obtain ⟨hp, rfl⟩ := hid m (List.mem_singleton.mpr rfl)
      refine ⟨Nat.lt_succ_self _, by simpa using hp, ?_⟩
      exact (firstZero_eq_none_iff counts m).mp hm

theorem pyGetSet_resolve {α : Type _} {xs : List α} {i : ℤ} {v : α}
    (h : pyGet xs i = some v) :
    ∃ kk : ℕ, xs.get? kk = some v ∧ ∀ w, pySet xs i w = some (xs.set kk w) := by
  rw [pyGet] at h
  by_cases h0 : 0 ≤ i
  · rw [if_pos h0] at h
    refine ⟨i.toNat, h, ?_⟩
    intro w
    have hlt : i.toNat < xs.length := (List.get?_eq_some.mp h).1
    rw [pySet, if_pos h0, if_pos (by omega)]
  · rw [if_neg h0] at h
    by_cases h1 : -(xs.length : ℤ) ≤ i
    · rw [if_pos h1] at h
      refine ⟨(i + xs.length).toNat, h, ?_⟩
      intro w
      rw [pySet, if_neg h0, if_pos h1]
    · rw [if_neg h1] at h
      exact absurd h (by simp)

theorem sum_set_succ {xs : List ℕ} : ∀ {k v : ℕ}, xs.get? k = some v →
    (xs.set k (v + 1)).sum = xs.sum + 1 := by
  induction xs with
  | nil => intro k v h; exact absurd h (by simp)
  | cons x rest ih =>
    intro k v h
    match k with
    | 0 =>
      obtain rfl : x = v := by simpa using h
      simp [List.set]
      omega
    | k + 1 =>
      have hrest : rest.get? k = some v := by simpa using h
      simp [List.set, ih hrest]
      omega

/-- Each ingested observation adds `1` to exactly one arm count and `1` to
`total_counts`, so the invariant `total_counts = sum of arm counts` is
preserved by the UCB ingest (and holds for the fresh all-zero state). -/
theorem ucb_ingest_total_sum (h : List Obs) : ∀ (st st' : UCBState),
    UCBAgent.ingest_history st h = some st' →
    st.total_counts = st.arm_counts.sum →
    st'.total_counts = st'.arm_counts.sum := by
  induction h with
  | nil =>
    intro st st' hing hinv
    obtain rfl : st = st' := by
      rw [UCBAgent.ingest_history] at hing
      exact Option.some.inj hing
    exact hinv
  | cons p rest ih =>
    intro st st' hing hinv
    obtain ⟨a, r⟩ := p
    rw [UCBAgent.ingest_history] at hing
    cases hc : pyGet st.arm_counts a with
    | none => rw [hc] at hing; exact absurd hing (by simp)
    | some n_old =>
      rw [hc] at hing
      cases hv : pyGet st.arm_values a with
      | none => rw [hv] at hing; exact absurd hing (by simp)
      | some m_old =>
        rw [hv] at hing
        dsimp only at hing
        obtain ⟨kk, hkk, hsetf⟩ := pyGetSet_resolve hc
        rw [hsetf (n_old + 1)] at hing
        cases hsv : pySet st.arm_values a
            (m_old + (r - m_old) / ((n_old + 1 : ℕ) : ℚ)) with
        | none => rw [hsv] at hing; exact absurd hing (by simp)
        | some values' =>
          rw [hsv] at hing
          dsimp only at hing
          refine ih _ _ hing ?_
          show st.total_counts + 1 = (st.arm_counts.set kk (n_old + 1)).sum
          rw [sum_set_succ hkk, hinv]

theorem armRewards_nil_of_ge {hist : List Obs} {t j : ℕ}
    (hlen : hist.length = t)
    (hshape : ∀ l < t, ∃ rw, hist.get? l = some ((l : ℤ), rw))
    (hj : t ≤ j) : armRewards hist j = [] := by
  rw [armRewards, List.filter_eq_nil.mpr, List.map_nil]
  intro p hp
  obtain ⟨n, hn⟩ := List.mem_iff_get?.mp hp
  have hnt : n < t := by
    rw [← hlen]
    exact (List.get?_eq_some.mp hn).1
  obtain ⟨rw_n, hrw⟩ := hshape n hnt
  rw [hn] at hrw
  obtain rfl := Option.some.inj hrw
  simp only [decide_eq_true_eq]
  intro hcontra
  have : n = j := by exact_mod_cast hcontra
  omega

theorem armRewards_pos {hist : List Obs} {l : ℕ} {rw : ℚ}
    (h : hist.get? l = some ((l : ℤ), rw)) : 0 < (armRewards hist l).length := by
  rw [armRewards, List.length_map]
  refine List.length_pos_of_mem (a := ((l : ℤ), rw)) ?_
  exact List.mem_filter.mpr ⟨List.get?_mem h, by simp⟩

/-- Warm-up induction for the UCB agent driven by `run_experiment`'s
full-history feeding: as long as fewer rounds than arms have elapsed, every
round succeeds and round `t` plays exactly arm `t` (the lowest-indexed
still-unplayed arm). -/
theorem ucb_warm_loop (k : ℕ) (c : ℝ) (probs : List ℚ) (best : ℚ) (rand : ℕ → ℚ)
    (hpl : probs.length = k) :
    ∀ (m t : ℕ) (s : Option UCBState) (hist : List Obs) (totR totG : ℚ),
      t + m ≤ k →
      hist.length = t →
      (∀ j < t, ∃ rw, hist.get? j = some ((j : ℤ), rw)) →
      (UCBAgent.ensure_init s k).arm_counts.length = k →
      (UCBAgent.ensure_init s k).arm_values.length = k →
      (∀ j, t ≤ j → j < k → (UCBAgent.ensure_init s k).arm_counts.get? j = some 0) →
      ∃ sf hf rs gs,
        runLoop probs best (UCBAgent.step c k) rand m t s hist totR totG =
          some (sf, hf, rs, gs) ∧
        hf.length = t + m ∧
        (∀ j < t + m, ∃ rw, hf.get? j = some ((j : ℤ), rw)) := by
  intro m
  induction m with
  | zero =>
    intro t s hist totR totG htm hlen hshape hl1 hl2 hzero
    exact ⟨s, hist, [], [], by rw [runLoop], by simpa using hlen,
      by simpa using hshape⟩
  | succ m ih =>
    intro t s hist totR totG htm hlen hshape hl1 hl2 hzero
    set st0 := UCBAgent.ensure_init s k with hst0
    have hvalidG : ∀ p ∈ hist, 0 ≤ p.1 ∧
        p.1 < (((⟨st0.arm_counts, st0.arm_values⟩ : GreedyState)).arm_counts.length : ℤ) := by
      intro p hp
      obtain ⟨n, hn⟩ := List.mem_iff_get?.mp hp
      have hnt : n < t := by
        rw [← hlen]
        exact (List.get?_eq_some.mp hn).1
      obtain ⟨rw_n, hrw⟩ := hshape n hnt
      rw [hn] at hrw
      obtain rfl := Option.some.inj hrw
      refine ⟨Int.ofNat_nonneg n, ?_⟩
      show ((n : ℤ)) < (st0.arm_counts.length : ℤ)
      rw [hl1]
      exact_mod_cast (by omega : n < k)
    obtain ⟨g, hingG, hglc, hglv, hgspec⟩ :=
      ingest_history_spec hist ⟨st0.arm_counts, st0.arm_values⟩
        (by show st0.arm_values.length = st0.arm_counts.length; rw [hl1, hl2]) hvalidG
    set st1 : UCBState := ⟨g.arm_counts, g.arm_values,
      st0.total_counts + hist.length⟩ with hst1
    have hingU : UCBAgent.ingest_history st0 hist = some st1 := by
      rw [ucb_ingest_eq, hingG]
      rfl
    have hst1c : st1.arm_counts = g.arm_counts := rfl
    have hst1v : st1.arm_values = g.arm_values := rfl
    have hst1_lc : st1.arm_counts.length = k := by
      rw [hst1c, hglc]
      exact hl1
    have hst1_lv : st1.arm_values.length = k := by
      rw [hst1v, hglv]
      exact hl2
    have hcount_ge : ∀ j, t ≤ j → j < k → st1.arm_counts.get? j = some 0 := by
      intro j hjt hjk
      have hc0 : st0.arm_counts.get? j = some 0 := hzero j hjt hjk
      obtain ⟨v0, hv0⟩ : ∃ v, st0.arm_values.get? j = some v :=
        ⟨_, List.get?_eq_get (by omega : j < st0.arm_values.length)⟩
      obtain ⟨hcnt, -⟩ := hgspec j 0 v0 hc0 hv0
      rw [hst1c, hcnt, armRewards_nil_of_ge hlen hshape hjt]
      rfl
    have hcount_lt : ∀ l, l < t → st1.arm_counts.get? l ≠ some 0 := by
      intro l hlt
      obtain ⟨cv, hc0⟩ : ∃ cv, st0.arm_counts.get? l = some cv :=
        ⟨_, List.get?_eq_get (by omega : l < st0.arm_counts.length)⟩
      obtain ⟨v0, hv0⟩ : ∃ v, st0.arm_values.get? l = some v :=
        ⟨_, List.get?_eq_get (by omega : l < st0.arm_values.length)⟩
      obtain ⟨hcnt, -⟩ := hgspec l cv v0 hc0 hv0
      obtain ⟨rw_l, hrw⟩ := hshape l hlt
      have hpos := armRewards_pos hrw
      rw [hst1c, hcnt]
      intro hcontra
      have := Option.some.inj hcontra
      omega
    have hfz : UCBAgent.firstZero st1.arm_counts k = some t :=
      firstZero_eq_some_of _ k t (by omega) (hcount_ge t le_rfl (by omega)) hcount_lt
    have hrecc : UCBAgent.recommendArm c k s hist = some (st1, (t : ℤ)) := by
      rw [UCBAgent.recommendArm, ← hst0, hingU]
      dsimp only
      rw [hfz]
    have hstepU : UCBAgent.step c k t s hist = some (some st1, (t : ℤ)) := by
      show (UCBAgent.recommendArm c k s hist).map (fun p => (some p.1, p.2)) = _
      rw [hrecc]
      rfl
    obtain ⟨p, hpt⟩ : ∃ p, pyGet probs ((t : ℤ)) = some p :=
      ⟨_, by rw [pyGet_nat]; exact List.get?_eq_get (by omega : t < probs.length)⟩
    set r : ℚ := if rand t ≤ p then 1 else 0 with hr
    have hist'_len : (hist ++ [((t : ℤ), r)]).length = t + 1 := by
      simp [hlen]
    have hist'_shape : ∀ j < t + 1,
        ∃ rw, (hist ++ [((t : ℤ), r)]).get? j = some ((j : ℤ), rw) := by
      intro j hj
      rcases lt_or_eq_of_le (Nat.lt_succ_iff.mp hj) with hjt | rfl
      · obtain ⟨rw_j, hrw⟩ := hshape j hjt
        exact ⟨rw_j, by rw [List.get?_append (by omega)]; exact hrw⟩
      · refine ⟨r, ?_⟩
        rw [show j = hist.length from hlen.symm]
        exact List.get?_concat_length _ _
    obtain ⟨sf, hf, rs, gs, hrun, hhlen, hhshape⟩ :=
      ih (t + 1) (some st1) (hist ++ [((t : ℤ), r)]) (totR + r) (totG + (best - p))
        (by omega) hist'_len hist'_shape
        (by show st1.arm_counts.length = k; exact hst1_lc)
        (by show st1.arm_values.length = k; exact hst1_lv)
        (by
          intro j hj1 hjk
          show st1.arm_counts.get? j = some 0
          exact hcount_ge j (by omega) hjk)
    refine ⟨sf, hf, (totR + r) :: rs, (totG + (best - p)) :: gs, ?_,
      by rw [hhlen]; omega, by intro j hj; exact hhshape j (by omega)⟩
    rw [runLoop, hstepU]
    dsimp only
    rw [hpt]
    dsimp only
    rw [← hr, hrun]

theorem ucb_warm_first_choice (c : ℝ) (num_arms : ℕ) (st : Option UCBState)
    (history : List Obs) (st' : UCBState) (a : ℤ)
    (h : UCBAgent.recommendArm c num_arms st history = some (st', a))
    (hex : ∃ i, i < num_arms ∧ st'.arm_counts.get? i = some 0) :
    ∃ j : ℕ, a = (j : ℤ) ∧ j < num_arms ∧ st'.arm_counts.get? j = some 0 ∧
      ∀ l < j, st'.arm_counts.get? l ≠ some 0 := by
  rw [UCBAgent.recommendArm] at h
  cases hing : UCBAgent.ingest_history (UCBAgent.ensure_init st num_arms) history with
  | none => rw [hing] at h; exact absurd h (by simp)
  | some st1 =>
    rw [hing] at h
    dsimp only at h
    cases hfz : UCBAgent.firstZero st1.arm_counts num_arms with
    | some j =>
      rw [hfz] at h
      simp only [Option.some.injEq, Prod.mk.injEq] at h
      obtain ⟨rfl, rfl⟩ := h
      obtain ⟨h1, h2, h3⟩ := firstZero_spec st1.arm_counts num_arms j hfz
      exact ⟨j, rfl, h1, h2, h3⟩
    | none =>
      rw [hfz] at h
      have hst : st' = st1 := by
        by_cases htot : st1.total_counts = 0
        · rw [if_pos htot] at h
          exact absurd h (by simp)
        · rw [if_neg htot] at h
          cases hsc : (List.range num_arms).mapM (fun i =>
              (st1.arm_values.get? i).bind (fun mean =>
                (st1.arm_counts.get? i).map (fun n =>
                  (mean : ℝ) + c * Real.sqrt (Real.log st1.total_counts / (n : ℝ))))) with
          | none => rw [hsc] at h; exact absurd h (by simp)
          | some scores =>
            rw [hsc] at h
            simp only [Option.some.injEq, Prod.mk.injEq] at h
            exact h.1.symm
      obtain ⟨i, hi, hzero⟩ := hex
      rw [hst] at hzero
      exact absurd hzero ((firstZero_eq_none_iff _ _).mp hfz i hi)

theorem ucb_first_k_rounds (k n : ℕ) (c : ℝ) (probs : List ℚ) (rand : ℕ → ℚ)
    (hpl : probs.length = k) (hk : 1 ≤ k) (hn : n ≤ k) :
    ∃ sf hf rs gs,
      run_experiment ⟨probs⟩ n none (UCBAgent.step c k) rand =
        some (sf, hf, rs, gs) ∧
      hf.length = n ∧
      (∀ t < n, ∃ rw, hf.get? t = some ((t : ℤ), rw)) := by
  obtain ⟨best, hbest⟩ : ∃ b, Bandit.pyMax probs = some b := by
    cases probs with
    | nil => rw [List.length_nil] at hpl; omega
    | cons x rest => exact ⟨_, rfl⟩
  obtain ⟨sf, hf, rs, gs, hrun, hhlen, hhshape⟩ :=
    ucb_warm_loop k c probs best rand hpl n 0 none [] 0 0
      (by omega) rfl (by omega)
      (by simp [UCBAgent.ensure_init])
      (by simp [UCBAgent.ensure_init])
      (by
        intro j _ hjk
        show (List.replicate k (0 : ℕ)).get? j = some 0
        exact get?_replicate_of_lt 0 hjk)
  refine ⟨sf, hf, rs, gs, ?_, by rw [hhlen]; omega,
    by intro t ht; exact hhshape t (by omega)⟩
  rw [run_experiment]
  rw [show Bandit.pyMax (Bandit.mk probs).arms = Bandit.pyMax probs from rfl, hbest]
  exact hrun

theorem ucb_steady_guards (st : UCBState) (num_arms : ℕ)
    (hfz : UCBAgent.firstZero st.arm_counts num_arms = none)
    (hlen : st.arm_counts.length = num_arms) (hk : 1 ≤ num_arms)
    (htot : st.total_counts = st.arm_counts.sum) :
    1 ≤ st.total_counts ∧
      ∀ i < num_arms, ∃ ci, st.arm_counts.get? i = some ci ∧ 1 ≤ ci := by
  have hall := (firstZero_eq_none_iff _ _).mp hfz
  have hpos : ∀ i < num_arms, ∃ ci, st.arm_counts.get? i = some ci ∧ 1 ≤ ci := by
    intro i hi
    have hil : i < st.arm_counts.length := by omega
    refine ⟨st.arm_counts.get ⟨i, hil⟩, List.get?_eq_get hil, ?_⟩
    rcases Nat.eq_zero_or_pos (st.arm_counts.get ⟨i, hil⟩) with hz | hp
    · exact absurd (by rw [List.get?_eq_get hil, hz]) (hall i hi)
    · exact hp
  refine ⟨?_, hpos⟩
  rcases Nat.eq_zero_or_pos st.total_counts with hz | hp
  · exfalso
    rw [htot] at hz
    obtain ⟨c0, hc0, hc1⟩ := hpos 0 (by omega)
    have : c0 = 0 :=
      List.sum_eq_zero_iff.mp hz c0 (List.get?_mem hc0)
    omega
  · exact hp

/-- Claim C6: the UCB agent's warm-up.  (1) Driven by `run_experiment` on a
`k`-arm bandit for `n ≤ k` rounds, a fresh UCBAgent's round-`t` choice is
exactly arm `t`, so the first `k` calls return `0, 1, ..., k-1` in
increasing order.  (2) Whenever some arm has a zero play count at decision
time (after ingesting), `recommendArm` returns the lowest-indexed arm with
zero count.  (3) When the warm-up scan finds no zero count (the only way to
reach the bound computation `mean + c*sqrt(ln(total)/n)`), every per-arm
count is at least `1`, and — since ingesting preserves
`total_counts = sum of counts` (theorem `ucb_ingest_total_sum`) —
`total_counts ≥ 1`, so `ln(total_counts)` and the divisions are all on
legal inputs. -/
theorem ucb_warmup :
    (∀ (k n : ℕ) (c : ℝ) (probs : List ℚ) (rand : ℕ → ℚ),
      probs.length = k → 1 ≤ k → n ≤ k →
      ∃ sf hf rs gs,
        run_experiment ⟨probs⟩ n none (UCBAgent.step c k) rand =
          some (sf, hf, rs, gs) ∧
        hf.length = n ∧
        (∀ t < n, ∃ rw, hf.get? t = some ((t : ℤ), rw))) ∧
    (∀ (c : ℝ) (num_arms : ℕ) (st : Option UCBState) (history : List Obs)
        (st' : UCBState) (a : ℤ),
      UCBAgent.recommendArm c num_arms st history = some (st', a) →
      (∃ i, i < num_arms ∧ st'.arm_counts.get? i = some 0) →
      ∃ j : ℕ, a = (j : ℤ) ∧ j < num_arms ∧ st'.arm_counts.get? j = some 0 ∧
        ∀ l < j, st'.arm_counts.get? l ≠ some 0) ∧
    (∀ (st : UCBState) (num_arms : ℕ),
      UCBAgent.firstZero st.arm_counts num_arms = none →
      st.arm_counts.length = num_arms → 1 ≤ num_arms →
      st.total_counts = st.arm_counts.sum →
      1 ≤ st.total_counts ∧
        ∀ i < num_arms, ∃ ci, st.arm_counts.get? i = some ci ∧ 1 ≤ ci) :=
  ⟨fun k n c probs rand hpl hk hn => ucb_first_k_rounds k n c probs rand hpl hk hn,
   fun c num_arms st history st' a h hex =>
     ucb_warm_first_choice c num_arms st history st' a h hex,
   fun st num_arms hfz hlen hk htot => ucb_steady_guards st num_arms hfz hlen hk htot⟩

/-- Claim C6 witness: all three parts at concrete inputs — a 2-round run on
a 2-arm bandit, a fresh 1-arm `recommendArm` call, and the state
`counts = [1,1], total = 2` after warm-up. -/
theorem ucb_warmup_witness :
    (∃ sf hf rs gs,
      run_experiment ⟨[0, 1]⟩ 2 none (UCBAgent.step 2 2) (fun _ => 0) =
        some (sf, hf, rs, gs) ∧
      hf.length = 2 ∧
      (∀ t < 2, ∃ rw, hf.get? t = some ((t : ℤ), rw))) ∧
    (∃ j : ℕ, (0 : ℤ) = (j : ℤ) ∧ j < 1 ∧
      (⟨[0], [0], 0⟩ : UCBState).arm_counts.get? j = some 0 ∧
      ∀ l < j, (⟨[0], [0], 0⟩ : UCBState).arm_counts.get? l ≠ some 0) ∧
    (1 ≤ (⟨[1, 1], [0, 0], 2⟩ : UCBState).total_counts ∧
      ∀ i < 2, ∃ ci, (⟨[1, 1], [0, 0], 2⟩ : UCBState).arm_counts.get? i = some ci ∧
        1 ≤ ci) :=
  ⟨ucb_warmup.1 2 2 2 [0, 1] (fun _ => 0) rfl (by decide) (by decide),
   ucb_warmup.2.1 2 1 none [] ⟨[0], [0], 0⟩ 0 (by rfl) ⟨0, by decide, by decide⟩,
   ucb_warmup.2.2 ⟨[1, 1], [0, 0], 2⟩ 2 (by decide) (by decide) (by decide) (by decide)⟩

end Bandits
